import Mathlib

/-!
Verification of the CSV automation workflow in `.kiro/workflow.ts`
(repository `kiro-csv-automation-hero`).

The pipeline core is embedded shallowly:

* `DataRow` mirrors the `DataRow` interface (lines 12-18).
* JavaScript `Map` objects (used by `cleanData` and `organizeData`) are
  modelled as association lists in insertion order: `Map.prototype.set`
  keeps the position of an existing key and appends a new key at the end;
  `values()` / iteration visit entries in that insertion order.
* `parseData` takes the outcome of `JSON.parse` as an `Option Json`
  (`none` when the content is syntactically invalid, in which case the
  thrown exception aborts the run) and the current instant as a string.
* `generateCSVOutputCount` models the only piece of bot state the report
  depends on: the `processedCount` accumulation of `generateCSVOutput`.
-/

set_option autoImplicit false

namespace CSVBot

/-- The `DataRow` interface (workflow.ts lines 12-18). -/
structure DataRow where
  id : String
  name : String
  category : String
  timestamp : String
  processed : Bool
  deriving Repr, DecidableEq

/-! JavaScript `Map` with string keys, as an insertion-ordered association
list. -/

/-- JavaScript `Map.prototype.has`. -/
def mapHas {A : Type} (m : List (String × A)) (k : String) : Bool :=
  m.any (fun p => p.1 == k)

/-- JavaScript `Map.prototype.set`: an existing key keeps its insertion
position and gets the new value; a new key is appended at the end. -/
def mapSet {A : Type} (m : List (String × A)) (k : String) (v : A) :
    List (String × A) :=
  if mapHas m k then m.map (fun p => if p.1 == k then (p.1, v) else p)
  else m ++ [(k, v)]

/-- JavaScript `Map.prototype.get` (`none` for `undefined`). -/
def mapGet? {A : Type} (m : List (String × A)) (k : String) : Option A :=
  (m.find? (fun p => p.1 == k)).map Prod.snd

/-- The keys in insertion order (`Map.prototype.keys`). -/
def mapKeys {A : Type} (m : List (String × A)) : List String :=
  m.map Prod.fst

/-- The values in insertion order (`Map.prototype.values`). -/
def mapValues {A : Type} (m : List (String × A)) : List A :=
  m.map Prod.snd

/-- Effect of one `Map.prototype.set` on the key sequence. -/
def insertKey (ks : List String) (k : String) : List String :=
  if ks.any (fun x => x == k) then ks else ks ++ [k]

/-- First-seen order of the keys inserted while iterating `l` left to
right: the order in which distinct values of `l` were first inserted into
a JavaScript `Map`. -/
def firstSeen (l : List String) : List String :=
  l.foldl insertKey []

/-! The Deduplicator/Validator: `CSVAutomationBot.cleanData`
(workflow.ts lines 130-143). -/

/-- Line 134, `new Map(data.map(d => [d.id, d]))`: the `Map` constructor
calls `set` once per `[d.id, d]` pair, in array order. -/
def buildIdMap (data : List DataRow) : List (String × DataRow) :=
  data.foldl (fun m d => mapSet m d.id d) []

/-- Line 134, `Array.from(new Map(data.map(d => [d.id, d])).values())`:
the deduplication step of `cleanData`. -/
def removeDuplicates (data : List DataRow) : List DataRow :=
  mapValues (buildIdMap data)

/-- Lines 137-139, the filter predicate `row.id && row.name && row.category`:
a JavaScript string is truthy exactly when it is non-empty. -/
def isValidRow (row : DataRow) : Bool :=
  row.id != "" && row.name != "" && row.category != ""

/-- Embedding of `CSVAutomationBot.cleanData` (lines 130-143): deduplicate by id, then
keep rows whose `id`, `name` and `category` are all truthy. -/
def cleanData (data : List DataRow) : List DataRow :=
  (removeDuplicates data).filter isValidRow

/-! The Categorizer: `CSVAutomationBot.organizeData` (lines 148-162). -/

/-- One iteration of the loop in `organizeData` (lines 153-158): create the
bucket on first encounter (`organized.set(row.category, [])`), then push the
row onto the bucket (`organized.get(row.category)!.push(row)`). -/
def organizeStep (m : List (String × List DataRow)) (row : DataRow) :
    List (String × List DataRow) :=
  let m1 := if mapHas m row.category then m else mapSet m row.category []
  mapSet m1 row.category ((mapGet? m1 row.category).getD [] ++ [row])

/-- Embedding of `CSVAutomationBot.organizeData` (lines 148-162). -/
def organizeData (data : List DataRow) : List (String × List DataRow) :=
  data.foldl organizeStep []

/-! The Emitter: `CSVAutomationBot.convertToCSV` (lines 185-191) and the
`processedCount` accumulation of `generateCSVOutput` (lines 167-180). -/

/-- Embedding of `CSVAutomationBot.convertToCSV` (lines 185-191). `toString` on `Bool`
models the template-literal coercion of the boolean `d.processed`. -/
def convertToCSV (data : List DataRow) : String :=
  let headers := "ID,Name,Category,Timestamp,Processed"
  let rows := data.map (fun d =>
    "\"" ++ d.id ++ "\",\"" ++ d.name ++ "\",\"" ++ d.category ++ "\",\""
      ++ d.timestamp ++ "\"," ++ toString d.processed)
  String.intercalate "\n" (headers :: rows)

/-- The `processedCount` state change performed by `generateCSVOutput`
(lines 167-180): for each bucket in iteration order the bot executes
`this.processedCount += rows.length`; the function returns the field's
value after the loop. -/
def generateCSVOutputCount (organized : List (String × List DataRow))
    (processedCount : Nat) : Nat :=
  organized.foldl (fun acc p => acc + p.2.length) processedCount

/-- Initial value of the `processedCount` field (line 25). -/
def initialProcessedCount : Nat := 0

/-- Report field `totalRecordsProcessed` (line 223): the current value of
`this.processedCount` when `generateReport` runs. -/
def totalRecordsProcessed (processedCount : Nat) : Nat :=
  processedCount

/-! The Record Parser: `CSVAutomationBot.parseData` (lines 109-125). -/

/-- JSON values, representing results of `JSON.parse`. -/
inductive Json where
  | null
  | bool (b : Bool)
  | num (n : Int)
  | str (s : String)
  | arr (items : List Json)
  | obj (fields : List (String × Json))

/-- JavaScript truthiness of a parsed JSON value. -/
def Json.truthy : Json → Bool
  | .null => false
  | .bool b => b
  | .num n => n != 0
  | .str s => s != ""
  | .arr _ => true
  | .obj _ => true

mutual

/-- JavaScript string coercion of a JSON value. The embedding types the
record fields as `String` (as the `DataRow` interface declares), so a
non-string field value is coerced at parse time rather than when it is
later interpolated into CSV text. -/
def Json.toStr : Json → String
  | .null => "null"
  | .bool b => toString b
  | .num n => toString n
  | .str s => s
  | .arr items => Json.listToStr items
  | .obj _ => "[object Object]"

/-- Array-to-string coercion: elements joined with commas, each element
rendered by `Json.elemStr`. -/
def Json.listToStr : List Json → String
  | [] => ""
  | [x] => Json.elemStr x
  | x :: rest => Json.elemStr x ++ "," ++ Json.listToStr rest

/-- Rendering of one array element under join: JavaScript renders a `null`
element as the empty string (`String([null])` is `""`). -/
def Json.elemStr : Json → String
  | .null => ""
  | j => Json.toStr j

end

/-- Property access `item.key` on a parsed JSON value: JavaScript throws a
`TypeError` when the receiver is `null`; on an object it yields the field's
value or `undefined` (`none`); on any other primitive or an array it
yields `undefined` (auto-boxing, no such property). -/
def Json.getField : Json → String → Except String (Option Json)
  | .null, _ => .error "TypeError"
  | .obj fields, key => .ok ((fields.find? (fun p => p.1 == key)).map Prod.snd)
  | _, _ => .ok none

/-- Presence of a field on a parsed JSON value. -/
def Json.hasField (item : Json) (key : String) : Bool :=
  match Json.getField item key with
  | .ok (some _) => true
  | _ => false

/-- The pattern `item.key || fallback` (lines 116-118): a `TypeError` from
the property access propagates; otherwise the field's value when present
and truthy, else the fallback string. -/
def fieldOr (item : Json) (key fallback : String) : Except String String :=
  match Json.getField item key with
  | .error e => .error e
  | .ok (some v) => .ok (if v.truthy then v.toStr else fallback)
  | .ok none => .ok fallback

/-- Line 114, `Array.isArray(parsed) ? parsed : [parsed]`. -/
def jsonItems : Json → List Json
  | .arr items => items
  | j => [j]

/-- The body of the callback of `items.map` (lines 115-121): the three
field accesses are evaluated in property order, and the first thrown
`TypeError` (a `null` item) aborts. -/
def mkRow (now : String) (idx : Nat) (item : Json) : Except String DataRow :=
  match fieldOr item "id" ("row_" ++ toString idx) with
  | .error e => .error e
  | .ok i =>
    match fieldOr item "name" "Unknown" with
    | .error e => .error e
    | .ok n =>
      match fieldOr item "category" "Uncategorized" with
      | .error e => .error e
      | .ok c =>
        .ok { id := i, name := n, category := c, timestamp := now,
              processed := false }

/-- Sequential `items.map((item, idx) => ...)` (line 115): the callback
runs on each element in order and its first thrown exception aborts the
whole map. -/
def mapRows (now : String) : Nat → List Json → Except String (List DataRow)
  | _, [] => .ok []
  | idx, item :: rest =>
    match mkRow now idx item with
    | .error e => .error e
    | .ok r =>
      match mapRows now (idx + 1) rest with
      | .error e => .error e
      | .ok rs => .ok (r :: rs)

/-- JavaScript `String.prototype.endsWith`, modelled at the character
level (for valid strings a byte-level suffix coincides with a
character-level suffix). -/
def strEndsWith (s pat : String) : Bool :=
  pat.data.isSuffixOf s.data

/-- Embedding of `CSVAutomationBot.parseData` (lines 109-125). `parsed` is the outcome
of `JSON.parse content` — `none` when the content is syntactically invalid,
in which case the thrown `SyntaxError` propagates out of `parseData` —
and `now` is `new Date().toISOString()`. Filenames not ending in `.json`
fall through to `return rows` with `rows` still empty. -/
def parseData (parsed : Option Json) (filename : String) (now : String) :
    Except String (List DataRow) :=
  if strEndsWith filename ".json" then
    match parsed with
    | none => .error "SyntaxError"
    | some j => mapRows now 0 (jsonItems j)
  else .ok []

/-! Lemmas about the JavaScript `Map` model. -/

theorem mapHas_eq_false_iff {A : Type} (m : List (String × A)) (k : String) :
    mapHas m k = false ↔ ∀ p ∈ m, p.1 ≠ k := by
  simp [mapHas, List.any_eq_false]

theorem mapGet?_eq_none {A : Type} (m : List (String × A)) (k : String)
    (h : mapHas m k = false) : mapGet? m k = none := by
  rw [mapHas_eq_false_iff] at h
  have hf : m.find? (fun p => p.1 == k) = none := by
    rw [List.find?_eq_none]
    intro p hp
    simpa using h p hp
  rw [mapGet?, hf]
  rfl

theorem any_map_fst {A : Type} (m : List (String × A)) (k : String) :
    ((List.map Prod.fst m).any fun x => x == k) = m.any fun p => p.1 == k := by
  induction m with
  | nil => rfl
  | cons p m ih => simp [List.any_cons, ih]

theorem mapKeys_mapSet {A : Type} (m : List (String × A)) (k : String) (v : A) :
    mapKeys (mapSet m k v) = insertKey (mapKeys m) k := by
  have hc : ((mapKeys m).any fun x => x == k) = mapHas m k := by
    rw [mapKeys, any_map_fst]
    rfl
  rw [mapSet, insertKey, hc]
  by_cases h : mapHas m k = true
  · rw [if_pos h, if_pos h, mapKeys, mapKeys, List.map_map]
    refine List.map_congr_left ?_
    intro p _
    by_cases hp : p.1 = k
    · simp [hp]
    · simp [hp]
  · rw [if_neg h, if_neg h, mapKeys, mapKeys, List.map_append]
    rfl

theorem insertKey_any_self (ks : List String) (k : String) :
    (insertKey ks k).any (fun x => x == k) = true := by
  rw [insertKey]
  by_cases h : (ks.any fun x => x == k) = true
  · rw [if_pos h]
    exact h
  · rw [if_neg h, List.any_append]
    simp

theorem insertKey_nodup (ks : List String) (k : String) (h : ks.Nodup) :
    (insertKey ks k).Nodup := by
  rw [insertKey]
  by_cases hc : (ks.any fun x => x == k) = true
  · rw [if_pos hc]
    exact h
  · have hk : k ∉ ks := by
      rw [Bool.not_eq_true, List.any_eq_false] at hc
      intro hmem
      exact (hc k hmem) (by simp)
    rw [if_neg hc, List.nodup_append]
    refine ⟨h, List.nodup_singleton k, ?_⟩
    intro a ha hb
    simp only [List.mem_singleton] at hb
    exact hk (hb ▸ ha)

theorem foldl_insertKey_nodup (l : List String) :
    ∀ ks : List String, ks.Nodup → (l.foldl insertKey ks).Nodup := by
  induction l with
  | nil => intro ks h; exact h
  | cons x rest ih =>
    intro ks h
    rw [List.foldl_cons]
    exact ih _ (insertKey_nodup ks x h)

theorem foldl_keys {A B : Type} (step : List (String × A) → B → List (String × A))
    (key : B → String)
    (hstep : ∀ m b, mapKeys (step m b) = insertKey (mapKeys m) (key b)) :
    ∀ (data : List B) (m : List (String × A)),
      mapKeys (data.foldl step m) = (data.map key).foldl insertKey (mapKeys m) := by
  intro data
  induction data with
  | nil => intro m; rfl
  | cons b rest ih =>
    intro m
    rw [List.foldl_cons, ih, List.map_cons, List.foldl_cons, hstep]

theorem find?_replace_self {A : Type} (m : List (String × A)) (k : String) (v : A)
    (h : mapHas m k = true) :
    (m.map (fun p => if p.1 == k then (p.1, v) else p)).find? (fun p => p.1 == k)
      = (m.find? (fun p => p.1 == k)).map (fun p => (p.1, v)) := by
  induction m with
  | nil => simp [mapHas] at h
  | cons p m ih =>
    by_cases hp : p.1 = k
    · have hpk : (p.1 == k) = true := beq_iff_eq.mpr hp
      rw [List.map_cons, if_pos hpk]
      simp only [List.find?_cons, hpk]
      rfl
    · have hpk : (p.1 == k) = false := beq_eq_false_iff_ne.mpr hp
      have h' : mapHas m k = true := by
        rw [mapHas, List.any_cons, hpk, Bool.false_or] at h
        exact h
      rw [List.map_cons, if_neg (by simp [hpk])]
      simp only [List.find?_cons, hpk]
      exact ih h'

theorem mapGet?_mapSet_self {A : Type} (m : List (String × A)) (k : String) (v : A) :
    mapGet? (mapSet m k v) k = some v := by
  rw [mapSet]
  by_cases h : mapHas m k = true
  · rw [if_pos h, mapGet?, find?_replace_self m k v h]
    have hsome : (m.find? (fun p => p.1 == k)).isSome := by
      rw [List.find?_isSome]
      rw [mapHas, List.any_eq_true] at h
      exact h
    obtain ⟨p0, hp0⟩ := Option.isSome_iff_exists.mp hsome
    rw [hp0]
    rfl
  · rw [if_neg h, mapGet?, List.find?_append]
    have h0 : m.find? (fun p => p.1 == k) = none := by
      rw [List.find?_eq_none]
      rw [Bool.not_eq_true, mapHas_eq_false_iff] at h
      intro p hp
      simpa using h p hp
    rw [h0, Option.none_or]
    simp only [List.find?_cons, beq_self_eq_true]
    rfl

theorem find?_replace_other {A : Type} (m : List (String × A)) (k i : String) (v : A)
    (hne : i ≠ k) :
    (m.map (fun p => if p.1 == k then (p.1, v) else p)).find? (fun p => p.1 == i)
      = m.find? (fun p => p.1 == i) := by
  induction m with
  | nil => simp
  | cons p m ih =>
    by_cases hp : p.1 = k
    · have hpi : (p.1 == i) = false := by
        rw [beq_eq_false_iff_ne, hp]
        exact fun e => hne e.symm
      rw [List.map_cons, if_pos (beq_iff_eq.mpr hp)]
      simp only [List.find?_cons, hpi]
      exact ih
    · rw [List.map_cons, if_neg (by simp [hp])]
      cases hpi : (p.1 == i)
      · simp only [List.find?_cons, hpi]
        exact ih
      · simp only [List.find?_cons, hpi]

theorem mapGet?_mapSet_other {A : Type} (m : List (String × A)) (k i : String) (v : A)
    (hne : i ≠ k) : mapGet? (mapSet m k v) i = mapGet? m i := by
  rw [mapSet]
  by_cases h : mapHas m k = true
  · rw [if_pos h, mapGet?, find?_replace_other m k i v hne, mapGet?]
  · rw [if_neg h, mapGet?, List.find?_append]
    have h1 : [(k, v)].find? (fun p => p.1 == i) = none := by
      have : ((k, v).1 == i) = false := by
        rw [beq_eq_false_iff_ne]
        exact fun e => hne e.symm
      simp only [List.find?_cons, this]
      rfl
    rw [h1, mapGet?]
    cases m.find? (fun p => p.1 == i) <;> rfl

theorem mem_of_nodup_get {A : Type} (m : List (String × A)) (c : String) (v : A)
    (hnd : (mapKeys m).Nodup) (h : (c, v) ∈ m) : mapGet? m c = some v := by
  induction m with
  | nil => cases h
  | cons p m ih =>
    rw [mapKeys, List.map_cons, List.nodup_cons] at hnd
    rcases List.mem_cons.mp h with h1 | h1
    · rw [mapGet?, ← h1]
      simp only [List.find?_cons, beq_self_eq_true]
      rfl
    · have hc : c ∈ mapKeys m := by
        rw [mapKeys, List.mem_map]
        exact ⟨(c, v), h1, rfl⟩
      have hp : (p.1 == c) = false := by
        rw [beq_eq_false_iff_ne]
        intro e
        exact hnd.1 (e ▸ hc)
      rw [mapGet?, List.find?_cons_of_neg _ (by simp [hp])]
      exact ih hnd.2 h1
/-! Lemmas about the deduplication step of `cleanData`. -/

theorem mapValues_cons {A : Type} (p : String × A) (m : List (String × A)) :
    mapValues (p :: m) = p.2 :: mapValues m := rfl

theorem mapValues_append {A : Type} (m1 m2 : List (String × A)) :
    mapValues (m1 ++ m2) = mapValues m1 ++ mapValues m2 :=
  List.map_append Prod.snd m1 m2

/-- Every entry of the deduplication map keys its row by the row's id. -/
def idKeyed (m : List (String × DataRow)) : Prop :=
  ∀ p ∈ m, p.1 = p.2.id

theorem idKeyed_mapSet (m : List (String × DataRow)) (v : DataRow)
    (hm : idKeyed m) : idKeyed (mapSet m v.id v) := by
  rw [mapSet]
  by_cases h : mapHas m v.id = true
  · rw [if_pos h]
    intro p hp
    rw [List.mem_map] at hp
    obtain ⟨q, hq, hfq⟩ := hp
    by_cases hqk : (q.1 == v.id) = true
    · rw [if_pos hqk] at hfq
      rw [← hfq]
      exact beq_iff_eq.mp hqk
    · rw [if_neg hqk] at hfq
      rw [← hfq]
      exact hm q hq
  · rw [if_neg h]
    intro p hp
    rcases List.mem_append.mp hp with h1 | h1
    · exact hm p h1
    · simp only [List.mem_singleton] at h1
      rw [h1]

theorem values_filter_nil (m : List (String × DataRow)) (i : String)
    (hm : idKeyed m) (h : mapHas m i = false) :
    (mapValues m).filter (fun r => r.id == i) = [] := by
  rw [List.filter_eq_nil_iff]
  intro r hr
  rw [mapValues, List.mem_map] at hr
  obtain ⟨p, hp, hpr⟩ := hr
  rw [mapHas_eq_false_iff] at h
  have hid : r.id = p.1 := by rw [← hpr, ← hm p hp]
  intro hcontra
  rw [hid, beq_iff_eq] at hcontra
  exact h p hp hcontra

theorem values_replace_self (m : List (String × DataRow)) (v : DataRow)
    (hm : idKeyed m) (hnd : (mapKeys m).Nodup) (h : mapHas m v.id = true) :
    (mapValues (m.map (fun p => if p.1 == v.id then (p.1, v) else p))).filter
      (fun r => r.id == v.id) = [v] := by
  induction m with
  | nil => simp [mapHas] at h
  | cons p m ih =>
    have hm' : idKeyed m := fun q hq => hm q (List.mem_cons_of_mem p hq)
    rw [mapKeys, List.map_cons, List.nodup_cons] at hnd
    by_cases hp : p.1 = v.id
    · rw [List.map_cons, if_pos (beq_iff_eq.mpr hp), mapValues_cons, List.filter_cons,
        if_pos (by simp)]
    -- the remaining entries carry other keys, hence other ids
      have hmm : mapHas m v.id = false := by
        rw [mapHas_eq_false_iff]
        intro q hq e
        exact hnd.1 (by
          rw [List.mem_map]
          exact ⟨q, hq, by rw [e, hp]⟩)
      have hfix : (m.map fun q => if q.1 == v.id then (q.1, v) else q) = m := by
        have h2 : ∀ q ∈ m, (if q.1 == v.id then (q.1, v) else q) = id q := by
          intro q hq
          rw [if_neg, id_eq]
          simp only [beq_iff_eq]
          intro e
          exact hnd.1 (by
            rw [List.mem_map]
            exact ⟨q, hq, by rw [e, hp]⟩)
        rw [List.map_congr_left h2, List.map_id]
      rw [hfix, values_filter_nil m v.id hm' hmm]
    · rw [List.map_cons, if_neg (by simp [hp]), mapValues_cons, List.filter_cons]
      have hpid : p.2.id = p.1 := (hm p (List.mem_cons_self p m)).symm
      rw [if_neg (by
        simp only [beq_iff_eq, hpid]
        exact hp)]
      have h' : mapHas m v.id = true := by
        rw [mapHas, List.any_cons, beq_eq_false_iff_ne.mpr hp, Bool.false_or] at h
        exact h
      exact ih hm' hnd.2 h'

theorem values_replace_other (m : List (String × DataRow)) (v : DataRow) (i : String)
    (hm : idKeyed m) (hne : v.id ≠ i) :
    (mapValues (m.map (fun p => if p.1 == v.id then (p.1, v) else p))).filter
        (fun r => r.id == i)
      = (mapValues m).filter (fun r => r.id == i) := by
  induction m with
  | nil => rfl
  | cons p m ih =>
    have hm' : idKeyed m := fun q hq => hm q (List.mem_cons_of_mem p hq)
    have hpid : p.2.id = p.1 := (hm p (List.mem_cons_self p m)).symm
    by_cases hp : p.1 = v.id
    · rw [List.map_cons, if_pos (beq_iff_eq.mpr hp), mapValues_cons, mapValues_cons,
        List.filter_cons, List.filter_cons]
      rw [if_neg (by
          simp only [beq_iff_eq]
          exact hne),
        if_neg (by
          simp only [beq_iff_eq, hpid, hp]
          exact hne)]
      exact ih hm'
    · rw [List.map_cons, if_neg (by simp [hp]), mapValues_cons, mapValues_cons,
        List.filter_cons, List.filter_cons]
      by_cases hi : (p.2.id == i) = true
      · rw [if_pos hi, if_pos hi, ih hm']
      · rw [if_neg hi, if_neg hi]
        exact ih hm'

theorem values_mapSet_self (m : List (String × DataRow)) (v : DataRow)
    (hm : idKeyed m) (hnd : (mapKeys m).Nodup) :
    (mapValues (mapSet m v.id v)).filter (fun r => r.id == v.id) = [v] := by
  rw [mapSet]
  by_cases h : mapHas m v.id = true
  · rw [if_pos h]
    exact values_replace_self m v hm hnd h
  · rw [if_neg h, mapValues_append, List.filter_append,
      values_filter_nil m v.id hm (by simpa using h), List.nil_append,
      mapValues_cons, List.filter_cons, if_pos (by simp)]
    rfl

theorem values_mapSet_other (m : List (String × DataRow)) (v : DataRow) (i : String)
    (hm : idKeyed m) (hne : v.id ≠ i) :
    (mapValues (mapSet m v.id v)).filter (fun r => r.id == i)
      = (mapValues m).filter (fun r => r.id == i) := by
  rw [mapSet]
  by_cases h : mapHas m v.id = true
  · rw [if_pos h]
    exact values_replace_other m v i hm hne
  · rw [if_neg h, mapValues_append, List.filter_append]
    have h1 : (mapValues [(v.id, v)]).filter (fun r => r.id == i) = [] := by
      rw [mapValues_cons, List.filter_cons, if_neg (by
        simp only [beq_iff_eq]
        exact hne)]
      rfl
    rw [h1, List.append_nil]

theorem foldl_dedup_filter (data : List DataRow) :
    ∀ (m : List (String × DataRow)), idKeyed m → (mapKeys m).Nodup → ∀ i,
      (mapValues (data.foldl (fun acc d => mapSet acc d.id d) m)).filter
          (fun r => r.id == i)
        = ((data.filter (fun r => r.id == i)).getLast?).elim
            ((mapValues m).filter (fun r => r.id == i)) (fun r => [r]) := by
  induction data with
  | nil =>
    intro m hm hnd i
    rfl
  | cons d rest ih =>
    intro m hm hnd i
    rw [List.foldl_cons]
    have hm' : idKeyed (mapSet m d.id d) := idKeyed_mapSet m d hm
    have hnd' : (mapKeys (mapSet m d.id d)).Nodup := by
      rw [mapKeys_mapSet]
      exact insertKey_nodup _ _ hnd
    rw [ih _ hm' hnd' i]
    by_cases hd : d.id = i
    · rw [List.filter_cons, if_pos (by simp [hd])]
      cases hrest : (rest.filter (fun r => r.id == i)).getLast? with
      | none =>
        rw [List.getLast?_cons, hrest]
        simp only [Option.elim, Option.getD]
        subst hd
        exact values_mapSet_self m d hm hnd
      | some r =>
        rw [List.getLast?_cons, hrest]
        simp only [Option.elim, Option.getD]
    · rw [List.filter_cons, if_neg (by simp [hd]),
        values_mapSet_other m d i hm hd]

theorem foldl_idKeyed (data : List DataRow) :
    ∀ m, idKeyed m → idKeyed (data.foldl (fun acc d => mapSet acc d.id d) m) := by
  induction data with
  | nil => intro m hm; exact hm
  | cons d rest ih =>
    intro m hm
    rw [List.foldl_cons]
    exact ih _ (idKeyed_mapSet m d hm)

theorem buildIdMap_idKeyed (data : List DataRow) : idKeyed (buildIdMap data) := by
  rw [buildIdMap]
  exact foldl_idKeyed data [] (fun p hp => absurd hp (List.not_mem_nil p))

theorem buildIdMap_keys_nodup (data : List DataRow) :
    (mapKeys (buildIdMap data)).Nodup := by
  rw [buildIdMap, foldl_keys _ _ (fun m b => mapKeys_mapSet m b.id b) data []]
  exact foldl_insertKey_nodup _ _ List.nodup_nil

theorem values_map_id_eq_keys (m : List (String × DataRow)) (hm : idKeyed m) :
    (mapValues m).map (fun r => r.id) = mapKeys m := by
  rw [mapValues, mapKeys, List.map_map]
  refine List.map_congr_left ?_
  intro p hp
  exact (hm p hp).symm
theorem foldl_mapSet_disjoint (l : List DataRow) :
    ∀ m, (∀ d ∈ l, mapHas m d.id = false) → (l.map (fun r => r.id)).Nodup →
      l.foldl (fun acc d => mapSet acc d.id d) m = m ++ l.map (fun d => (d.id, d)) := by
  induction l with
  | nil => intro m _ _; simp
  | cons d rest ih =>
    intro m hdis hnd
    rw [List.foldl_cons]
    have h1 : mapHas m d.id = false := hdis d (List.mem_cons_self d rest)
    have hset : mapSet m d.id d = m ++ [(d.id, d)] := by
      rw [mapSet, if_neg (by simp [h1])]
    rw [hset]
    rw [List.map_cons, List.nodup_cons] at hnd
    have hdis' : ∀ e ∈ rest, mapHas (m ++ [(d.id, d)]) e.id = false := by
      intro e he
      have h2 : mapHas m e.id = false := hdis e (List.mem_cons_of_mem d he)
      have h3 : ((d.id, d).1 == e.id) = false := by
        rw [beq_eq_false_iff_ne]
        intro e2
        exact hnd.1 (by
          rw [List.mem_map]
          exact ⟨e, he, e2.symm⟩)
      rw [mapHas, List.any_append]
      rw [mapHas] at h2
      rw [h2, List.any_cons, h3]
      rfl
    rw [ih _ hdis' hnd.2, List.append_assoc]
    rfl

theorem dedup_of_nodup_ids (l : List DataRow)
    (h : (l.map (fun r => r.id)).Nodup) : removeDuplicates l = l := by
  rw [removeDuplicates, buildIdMap,
    foldl_mapSet_disjoint l [] (fun d _ => rfl) h, List.nil_append, mapValues,
    List.map_map]
  have h2 : ∀ d ∈ l, (Prod.snd ∘ fun d => (d.id, d)) d = id d := fun d _ => rfl
  rw [List.map_congr_left h2, List.map_id]

/-- C1: the deduplication step of `cleanData` keeps, for every id, exactly
the last record of the input carrying that id: the rows of its output whose
id is `i` are precisely the last occurrence of id `i` in arrival order
(and there is none exactly when `i` never occurs). -/
theorem dedup_keeps_last_occurrence (data : List DataRow) (i : String) :
    (removeDuplicates data).filter (fun r => r.id == i)
      = ((data.filter (fun r => r.id == i)).getLast?).toList := by
  rw [removeDuplicates, buildIdMap,
    foldl_dedup_filter data [] (fun p hp => absurd hp (List.not_mem_nil p))
      List.nodup_nil i]
  cases (data.filter (fun r => r.id == i)).getLast? <;> rfl

/-- C2: a record survives the validation step of `cleanData` iff its `id`,
`name` and `category` are all non-empty, and the validated output is a
sublist (stable-order selection) of the deduplicated sequence. -/
theorem cleanData_validation (data : List DataRow) :
    (∀ r, r ∈ cleanData data ↔
        r ∈ removeDuplicates data ∧ (r.id ≠ "" ∧ r.name ≠ "" ∧ r.category ≠ "")) ∧
    (cleanData data).Sublist (removeDuplicates data) := by
  constructor
  · intro r
    rw [cleanData, List.mem_filter]
    constructor
    · rintro ⟨h1, h2⟩
      refine ⟨h1, ?_⟩
      simpa [isValidRow, Bool.and_eq_true, bne_iff_ne, and_assoc] using h2
    · rintro ⟨h1, h2⟩
      refine ⟨h1, ?_⟩
      simpa [isValidRow, Bool.and_eq_true, bne_iff_ne, and_assoc] using h2
  · exact List.filter_sublist _

/-- C4: the output order of the deduplication step follows the order in
which each distinct id was first seen in the input, not the positions of
the surviving occurrences. -/
theorem dedup_first_seen_order (data : List DataRow) :
    (removeDuplicates data).map (fun r => r.id)
      = firstSeen (data.map (fun r => r.id)) := by
  rw [removeDuplicates, values_map_id_eq_keys _ (buildIdMap_idKeyed data),
    buildIdMap, foldl_keys _ _ (fun m b => mapKeys_mapSet m b.id b) data []]
  rfl

/-- C9: `cleanData` is idempotent: applied to its own output it returns
that output unchanged. -/
theorem cleanData_idempotent (data : List DataRow) :
    cleanData (cleanData data) = cleanData data := by
  have hsub : (cleanData data).Sublist (removeDuplicates data) :=
    List.filter_sublist _
  have h1 : ((removeDuplicates data).map (fun r => r.id)).Nodup := by
    rw [removeDuplicates, values_map_id_eq_keys _ (buildIdMap_idKeyed data)]
    exact buildIdMap_keys_nodup data
  have hnodup : ((cleanData data).map (fun r => r.id)).Nodup :=
    List.Nodup.sublist (List.Sublist.map _ hsub) h1
  have h2 : removeDuplicates (cleanData data) = cleanData data :=
    dedup_of_nodup_ids _ hnodup
  show (removeDuplicates (cleanData data)).filter isValidRow = cleanData data
  rw [h2, List.filter_eq_self]
  intro r hr
  exact List.of_mem_filter hr
/-! Lemmas about the Categorizer and the Emitter count. -/

theorem mapHas_keys {A : Type} (m : List (String × A)) (k : String) :
    ((mapKeys m).any fun x => x == k) = mapHas m k := by
  rw [mapKeys, any_map_fst]
  rfl

theorem mapHas_mapSet_self {A : Type} (m : List (String × A)) (k : String) (v : A) :
    mapHas (mapSet m k v) k = true := by
  rw [← mapHas_keys, mapKeys_mapSet]
  exact insertKey_any_self _ _

theorem map_replace_id {A : Type} (m : List (String × A)) (k : String) (w : A)
    (h : mapHas m k = false) :
    (m.map fun p => if p.1 == k then (p.1, w) else p) = m := by
  have h2 : ∀ q ∈ m, (if q.1 == k then (q.1, w) else q) = id q := by
    intro q hq
    rw [mapHas_eq_false_iff] at h
    rw [if_neg (by simp [h q hq]), id_eq]
  rw [List.map_congr_left h2, List.map_id]

theorem mapSet_mapSet_self {A : Type} (m : List (String × A)) (k : String) (v w : A) :
    mapSet (mapSet m k v) k w = mapSet m k w := by
  have houter : mapSet (mapSet m k v) k w
      = (mapSet m k v).map (fun p => if p.1 == k then (p.1, w) else p) := by
    conv_lhs => rw [mapSet]
    rw [if_pos (mapHas_mapSet_self m k v)]
  rw [houter]
  by_cases h : mapHas m k = true
  · rw [mapSet, if_pos h, mapSet, if_pos h, List.map_map]
    refine List.map_congr_left ?_
    intro p _
    by_cases hp : p.1 = k
    · simp [hp]
    · simp [hp]
  · rw [mapSet, if_neg h, mapSet, if_neg h, List.map_append,
      map_replace_id m k w (by simpa using h)]
    rw [List.map_cons]
    rw [if_pos (by simp)]
    rfl
theorem organizeStep_eq (m : List (String × List DataRow)) (row : DataRow) :
    organizeStep m row
      = mapSet m row.category ((mapGet? m row.category).getD [] ++ [row]) := by
  simp only [organizeStep]
  by_cases h : mapHas m row.category = true
  · rw [if_pos h]
  · rw [if_neg h, mapGet?_mapSet_self,
      mapGet?_eq_none m row.category (by simpa using h)]
    exact mapSet_mapSet_self m row.category [] ([] ++ [row])

theorem mapKeys_organizeStep (m : List (String × List DataRow)) (row : DataRow) :
    mapKeys (organizeStep m row) = insertKey (mapKeys m) row.category := by
  rw [organizeStep_eq, mapKeys_mapSet]

theorem foldl_organize_bucket (data : List DataRow) :
    ∀ m, (mapKeys m).Nodup → ∀ c rows, (c, rows) ∈ data.foldl organizeStep m →
      rows = (mapGet? m c).getD [] ++ data.filter (fun r => r.category == c) := by
  induction data with
  | nil =>
    intro m hnd c rows hmem
    rw [List.foldl_nil] at hmem
    rw [List.filter_nil, List.append_nil, mem_of_nodup_get m c rows hnd hmem]
    rfl
  | cons d rest ih =>
    intro m hnd c rows hmem
    rw [List.foldl_cons] at hmem
    have hnd' : (mapKeys (organizeStep m d)).Nodup := by
      rw [mapKeys_organizeStep]
      exact insertKey_nodup _ _ hnd
    have h1 := ih (organizeStep m d) hnd' c rows hmem
    rw [h1, organizeStep_eq]
    by_cases hc : d.category = c
    · subst hc
      rw [mapGet?_mapSet_self, List.filter_cons, if_pos (by simp)]
      simp only [Option.getD]
      rw [List.append_assoc]
      rfl
    · rw [mapGet?_mapSet_other _ _ _ _ (fun e => hc e.symm),
        List.filter_cons, if_neg (by simp [hc])]

/-- C3: `organizeData` partitions its input exactly: the bucket sequence is
keyed in first-seen-category order, and the bucket of a category `c` holds
exactly the input records whose category is `c` (compared exactly), in
input order. -/
theorem organizeData_partition (data : List DataRow) :
    mapKeys (organizeData data) = firstSeen (data.map (fun r => r.category)) ∧
    ∀ c rows, (c, rows) ∈ organizeData data →
      rows = data.filter (fun r => r.category == c) := by
  constructor
  · rw [organizeData,
      foldl_keys organizeStep (fun r => r.category) mapKeys_organizeStep data []]
    rfl
  · intro c rows hmem
    rw [organizeData] at hmem
    exact foldl_organize_bucket data [] List.nodup_nil c rows hmem

/-- Witness for C3 at a concrete input. -/
theorem organizeData_partition_witness :
    ([⟨"1", "Alice", "Team", "t", false⟩] : List DataRow)
      = List.filter (fun r => r.category == "Team")
          [(⟨"1", "Alice", "Team", "t", false⟩ : DataRow)] :=
  (organizeData_partition [⟨"1", "Alice", "Team", "t", false⟩]).2 "Team"
    [⟨"1", "Alice", "Team", "t", false⟩] (by decide)
/-- Total number of records held across all buckets. -/
def sumLens (m : List (String × List DataRow)) : Nat :=
  (m.map (fun p => p.2.length)).sum

theorem sumLens_cons (p : String × List DataRow) (m : List (String × List DataRow)) :
    sumLens (p :: m) = p.2.length + sumLens m := by
  rw [sumLens, List.map_cons, List.sum_cons, sumLens]

theorem sumLens_append (m1 m2 : List (String × List DataRow)) :
    sumLens (m1 ++ m2) = sumLens m1 + sumLens m2 := by
  rw [sumLens, List.map_append, List.sum_append, sumLens, sumLens]

theorem generateCSVOutputCount_eq (m : List (String × List DataRow)) :
    ∀ pc : Nat, generateCSVOutputCount m pc = pc + sumLens m := by
  induction m with
  | nil =>
    intro pc
    rw [sumLens]
    rfl
  | cons p m ih =>
    intro pc
    rw [generateCSVOutputCount, List.foldl_cons]
    have h2 := ih (pc + p.2.length)
    rw [generateCSVOutputCount] at h2
    rw [h2, sumLens_cons]
    omega

theorem sumLens_replace (m : List (String × List DataRow)) (k : String)
    (old : List DataRow) (row : DataRow) (hnd : (mapKeys m).Nodup)
    (hold : mapGet? m k = some old) :
    sumLens (m.map (fun p => if p.1 == k then (p.1, old ++ [row]) else p))
      = sumLens m + 1 := by
  induction m with
  | nil => simp [mapGet?] at hold
  | cons p m ih =>
    rw [mapKeys, List.map_cons, List.nodup_cons] at hnd
    by_cases hp : p.1 = k
    · have hpk : (p.1 == k) = true := beq_iff_eq.mpr hp
      have hclean : p.2 = old := by
        rw [mapGet?] at hold
        simp only [List.find?_cons, hpk] at hold
        simpa using hold
      have hmm : mapHas m k = false := by
        rw [mapHas_eq_false_iff]
        intro q hq e
        exact hnd.1 (by
          rw [List.mem_map]
          exact ⟨q, hq, by rw [e, hp]⟩)
      rw [List.map_cons, if_pos hpk, sumLens_cons, map_replace_id m k _ hmm,
        sumLens_cons, ← hclean, List.length_append]
      simp only [List.length_singleton]
      omega
    · have hpk : (p.1 == k) = false := beq_eq_false_iff_ne.mpr hp
      have hold' : mapGet? m k = some old := by
        rw [mapGet?] at hold ⊢
        simp only [List.find?_cons, hpk] at hold
        exact hold
      rw [List.map_cons, if_neg (by simp [hpk]), sumLens_cons, sumLens_cons,
        ih hnd.2 hold']
      omega

theorem sumLens_organizeStep (m : List (String × List DataRow)) (row : DataRow)
    (hnd : (mapKeys m).Nodup) :
    sumLens (organizeStep m row) = sumLens m + 1 := by
  rw [organizeStep_eq]
  by_cases h : mapHas m row.category = true
  · have hfind : (m.find? (fun p => p.1 == row.category)).isSome := by
      rw [List.find?_isSome]
      rw [mapHas, List.any_eq_true] at h
      exact h
    obtain ⟨q, hq⟩ := Option.isSome_iff_exists.mp hfind
    have hold : mapGet? m row.category = some q.2 := by
      rw [mapGet?, hq]
      rfl
    rw [hold]
    simp only [Option.getD]
    rw [mapSet, if_pos h]
    exact sumLens_replace m row.category q.2 row hnd hold
  · rw [mapGet?_eq_none m row.category (by simpa using h)]
    simp only [Option.getD]
    rw [mapSet, if_neg h, sumLens_append, sumLens_cons]
    rw [sumLens, sumLens]
    simp

theorem foldl_organize_sumLens (data : List DataRow) :
    ∀ m, (mapKeys m).Nodup →
      sumLens (data.foldl organizeStep m) = sumLens m + data.length := by
  induction data with
  | nil =>
    intro m _
    rw [List.foldl_nil, List.length_nil]
    omega
  | cons d rest ih =>
    intro m hnd
    rw [List.foldl_cons]
    have hnd' : (mapKeys (organizeStep m d)).Nodup := by
      rw [mapKeys_organizeStep]
      exact insertKey_nodup _ _ hnd
    rw [ih _ hnd', sumLens_organizeStep m d hnd, List.length_cons]
    omega

/-- C5: starting from a zero running total, the record count accumulated by
`generateCSVOutput` across all buckets — the value `generateReport` writes
as `totalRecordsProcessed` — equals the length of the cleaned sequence. -/
theorem emitter_count_roundtrip (data : List DataRow) :
    totalRecordsProcessed
        (generateCSVOutputCount (organizeData (cleanData data)) 0)
      = (cleanData data).length := by
  rw [totalRecordsProcessed, generateCSVOutputCount_eq, organizeData,
    foldl_organize_sumLens _ [] List.nodup_nil]
  rw [sumLens]
  simp

/-- C10: `processedCount` starts at 0 and is only ever increased by
`generateCSVOutput`; nothing resets it between runs, so after a second run
of the singleton bot the reported `totalRecordsProcessed` is the sum of the
records emitted in both runs, not the second run's count alone. -/
theorem processedCount_accumulates :
    initialProcessedCount = 0 ∧
    (∀ (organized : List (String × List DataRow)) (pc : Nat),
      pc ≤ generateCSVOutputCount organized pc) ∧
    (∀ d1 d2 : List DataRow,
      totalRecordsProcessed
          (generateCSVOutputCount (organizeData (cleanData d2))
            (generateCSVOutputCount (organizeData (cleanData d1))
              initialProcessedCount))
        = (cleanData d1).length + (cleanData d2).length) := by
  refine ⟨rfl, ?_, ?_⟩
  · intro organized pc
    rw [generateCSVOutputCount_eq]
    exact Nat.le_add_right pc _
  · intro d1 d2
    rw [totalRecordsProcessed, generateCSVOutputCount_eq,
      generateCSVOutputCount_eq, organizeData, organizeData,
      foldl_organize_sumLens _ [] List.nodup_nil,
      foldl_organize_sumLens _ [] List.nodup_nil, initialProcessedCount]
    rw [sumLens]
    simp
/-! The Emitter output format, written from the specification text. -/

/-- Specification side: a field enclosed in double quotes, contents
verbatim (no escaping of embedded quotes or delimiters). -/
def specQuoted (s : String) : String := "\"" ++ s ++ "\""

/-- Specification side: one row — `id`, `name`, `category`, `timestamp`
each quoted verbatim, then `processed` unquoted as its boolean literal
text. -/
def specCsvRow (d : DataRow) : String :=
  specQuoted d.id ++ "," ++ specQuoted d.name ++ "," ++ specQuoted d.category
    ++ "," ++ specQuoted d.timestamp ++ ","
    ++ (if d.processed then "true" else "false")

/-- Specification side: the fixed header row followed by one row per
record in order, rows separated by newlines. -/
def specCsvFile (data : List DataRow) : String :=
  String.intercalate "\n" ("ID,Name,Category,Timestamp,Processed" :: data.map specCsvRow)

/-- C6: `convertToCSV` produces exactly the header line followed by one
line per record in order, with `id`, `name`, `category`, `timestamp`
double-quoted verbatim and `processed` appended unquoted as its boolean
literal text. -/
theorem convertToCSV_matches_spec (data : List DataRow) :
    convertToCSV data = specCsvFile data := by
  simp only [convertToCSV, specCsvFile]
  have h : ∀ d ∈ data,
      "\"" ++ d.id ++ "\",\"" ++ d.name ++ "\",\"" ++ d.category ++ "\",\""
        ++ d.timestamp ++ "\"," ++ toString d.processed = specCsvRow d := by
    intro d _
    rw [specCsvRow, specQuoted, specQuoted, specQuoted, specQuoted]
    cases hp : d.processed <;>
    · apply String.ext
      simp [String.data_append, hp]
      rfl
  rw [List.map_congr_left h]
/-! The Record Parser claims. -/

theorem endsWith_csv_not_json (s : String) (h : strEndsWith s ".csv" = true) :
    strEndsWith s ".json" = false := by
  rw [strEndsWith] at h ⊢
  rw [List.isSuffixOf_iff_suffix] at h
  by_contra hj
  rw [Bool.not_eq_false, List.isSuffixOf_iff_suffix] at hj
  obtain ⟨t1, ht1⟩ := h
  obtain ⟨t2, ht2⟩ := hj
  have e1 : s.data.getLast? = some 'v' := by
    rw [← ht1, List.getLast?_append]
    rfl
  have e2 : s.data.getLast? = some 'n' := by
    rw [← ht2, List.getLast?_append]
    rfl
  rw [e1] at e2
  exact absurd e2 (by decide)

/-- C8: for every content and parse outcome, `parseData` on a file whose
name ends in `.csv` returns the empty record sequence and raises no
error. -/
theorem parseData_csv_empty (parsed : Option Json) (filename now : String)
    (h : strEndsWith filename ".csv" = true) :
    parseData parsed filename now = .ok [] := by
  rw [parseData.eq_def, if_neg (by simp [endsWith_csv_not_json filename h])]

/-- Witness for C8 at a concrete filename. -/
theorem parseData_csv_empty_witness :
    strEndsWith "data.csv" ".csv" = true
      ∧ parseData none "data.csv" "T" = .ok [] :=
  ⟨by decide, parseData_csv_empty none "data.csv" "T" (by decide)⟩

/-- On any receiver other than `null`, a field access does not throw, and
an absent field yields the fallback. -/
theorem fieldOr_of_not_null (item : Json) (key fallback : String)
    (hnn : item ≠ Json.null) :
    ∃ s, fieldOr item key fallback = .ok s
      ∧ (item.hasField key = false → s = fallback) := by
  cases item with
  | null => exact absurd rfl hnn
  | obj fields =>
    cases hf : (fields.find? (fun p => p.1 == key)).map Prod.snd with
    | none =>
      refine ⟨fallback, ?_, fun _ => rfl⟩
      simp [fieldOr, Json.getField, hf]
    | some v =>
      refine ⟨if v.truthy then v.toStr else fallback, ?_, ?_⟩
      · simp [fieldOr, Json.getField, hf]
      · intro habs
        rw [Json.hasField] at habs
        simp [Json.getField, hf] at habs
  | bool b => exact ⟨fallback, rfl, fun _ => rfl⟩
  | num n => exact ⟨fallback, rfl, fun _ => rfl⟩
  | str s => exact ⟨fallback, rfl, fun _ => rfl⟩
  | arr items => exact ⟨fallback, rfl, fun _ => rfl⟩

theorem mkRow_error_iff (now : String) (idx : Nat) (item : Json) :
    (∃ e, mkRow now idx item = .error e) ↔ item = Json.null := by
  constructor
  · rintro ⟨e, he⟩
    by_contra hnn
    obtain ⟨si, hi, _⟩ := fieldOr_of_not_null item "id" ("row_" ++ toString idx) hnn
    obtain ⟨sn, hn, _⟩ := fieldOr_of_not_null item "name" "Unknown" hnn
    obtain ⟨sc, hc, _⟩ := fieldOr_of_not_null item "category" "Uncategorized" hnn
    rw [mkRow, hi, hn, hc] at he
    exact Except.noConfusion he
  · rintro rfl
    exact ⟨"TypeError", rfl⟩

theorem mkRow_ok (now : String) (idx : Nat) (item : Json) (r : DataRow)
    (h : mkRow now idx item = .ok r) :
    r.processed = false ∧ r.timestamp = now ∧
    (item.hasField "id" = false → r.id = "row_" ++ toString idx) ∧
    (item.hasField "name" = false → r.name = "Unknown") ∧
    (item.hasField "category" = false → r.category = "Uncategorized") := by
  by_cases hnn : item = Json.null
  · subst hnn
    exact Except.noConfusion h
  · obtain ⟨si, hi, hi2⟩ := fieldOr_of_not_null item "id" ("row_" ++ toString idx) hnn
    obtain ⟨sn, hn, hn2⟩ := fieldOr_of_not_null item "name" "Unknown" hnn
    obtain ⟨sc, hc, hc2⟩ := fieldOr_of_not_null item "category" "Uncategorized" hnn
    rw [mkRow, hi, hn, hc] at h
    injection h with h
    subst h
    exact ⟨rfl, rfl, fun ha => hi2 ha, fun ha => hn2 ha, fun ha => hc2 ha⟩

theorem mapRows_error_iff (now : String) :
    ∀ (items : List Json) (idx : Nat),
      (∃ e, mapRows now idx items = .error e) ↔ Json.null ∈ items := by
  intro items
  induction items with
  | nil =>
    intro idx
    constructor
    · rintro ⟨e, he⟩
      exact Except.noConfusion he
    · intro h
      exact absurd h (List.not_mem_nil _)
  | cons item rest ih =>
    intro idx
    constructor
    · rintro ⟨e, he⟩
      rw [mapRows] at he
      cases hm : mkRow now idx item with
      | error e2 =>
        have h1 : item = Json.null := (mkRow_error_iff now idx item).mp ⟨e2, hm⟩
        exact List.mem_cons.mpr (Or.inl h1.symm)
      | ok r =>
        rw [hm] at he
        cases hrest : mapRows now (idx + 1) rest with
        | error e3 =>
          exact List.mem_cons.mpr (Or.inr ((ih (idx + 1)).mp ⟨e3, hrest⟩))
        | ok rs =>
          rw [hrest] at he
          exact Except.noConfusion he
    · intro h
      rcases List.mem_cons.mp h with h1 | h1
      · obtain ⟨e, he⟩ := (mkRow_error_iff now idx item).mpr h1.symm
        refine ⟨e, ?_⟩
        rw [mapRows, he]
      · obtain ⟨e, he⟩ := (ih (idx + 1)).mpr h1
        cases hm : mkRow now idx item with
        | error e2 =>
          refine ⟨e2, ?_⟩
          rw [mapRows, hm]
        | ok r =>
          refine ⟨e, ?_⟩
          rw [mapRows, hm, he]

theorem mapRows_ok (now : String) :
    ∀ (items : List Json) (idx : Nat) (rows : List DataRow),
      mapRows now idx items = .ok rows →
      rows.length = items.length ∧
      (∀ r ∈ rows, r.processed = false ∧ r.timestamp = now) ∧
      (∀ k (hk : k < items.length) (hk2 : k < rows.length),
        ((items.get ⟨k, hk⟩).hasField "id" = false →
          (rows.get ⟨k, hk2⟩).id = "row_" ++ toString (idx + k)) ∧
        ((items.get ⟨k, hk⟩).hasField "name" = false →
          (rows.get ⟨k, hk2⟩).name = "Unknown") ∧
        ((items.get ⟨k, hk⟩).hasField "category" = false →
          (rows.get ⟨k, hk2⟩).category = "Uncategorized")) := by
  intro items
  induction items with
  | nil =>
    intro idx rows h
    rw [mapRows] at h
    injection h with h
    subst h
    refine ⟨rfl, fun r hr => absurd hr (List.not_mem_nil r), ?_⟩
    intro k hk
    exact absurd hk (Nat.not_lt_zero k)
  | cons item rest ih =>
    intro idx rows h
    rw [mapRows] at h
    cases hm : mkRow now idx item with
    | error e =>
      rw [hm] at h
      exact Except.noConfusion h
    | ok r =>
      rw [hm] at h
      cases hrest : mapRows now (idx + 1) rest with
      | error e =>
        rw [hrest] at h
        exact Except.noConfusion h
      | ok rs =>
        rw [hrest] at h
        injection h with h
        subst h
        obtain ⟨hr1, hr2, hr3, hr4, hr5⟩ := mkRow_ok now idx item r hm
        obtain ⟨ihlen, ihmem, ihidx⟩ := ih (idx + 1) rs hrest
        refine ⟨?_, ?_, ?_⟩
        · rw [List.length_cons, List.length_cons, ihlen]
        · intro q hq
          rcases List.mem_cons.mp hq with h1 | h1
          · subst h1
            exact ⟨hr1, hr2⟩
          · exact ihmem q h1
        · intro k hk hk2
          match k with
          | 0 =>
            refine ⟨?_, ?_, ?_⟩
            · intro ha
              rw [Nat.add_zero]
              exact hr3 ha
            · intro ha
              exact hr4 ha
            · intro ha
              exact hr5 ha
          | Nat.succ k2 =>
            have hk' : k2 < rest.length := Nat.lt_of_succ_lt_succ hk
            have hk2' : k2 < rs.length := Nat.lt_of_succ_lt_succ hk2
            have h6 := ihidx k2 hk' hk2'
            refine ⟨?_, h6.2.1, h6.2.2⟩
            intro ha
            have h7 := h6.1 ha
            rw [show idx + 1 + k2 = idx + (k2 + 1) from by omega] at h7
            exact h7

/-- C7, amended: on a `.json` file, `parseData` raises an error exactly
when the content is syntactically invalid (`JSON.parse` threw) or some
parsed item is JSON `null` (property access `item.id` throws a
`TypeError` in JavaScript); on every other syntactically valid content it
returns records without error, treating a single object as a one-element
sequence, setting `processed := false` and the parse-time timestamp on
every record, and substituting the fallbacks `row_<index>`, `Unknown` and
`Uncategorized` for absent fields. -/
theorem parseData_json_total (parsed : Option Json) (filename now : String) :
    ((∃ e, parseData parsed filename now = .error e)
        ↔ (strEndsWith filename ".json" = true ∧
            (parsed = none ∨ ∃ j, parsed = some j ∧ Json.null ∈ jsonItems j))) ∧
    (∀ j rows, parsed = some j → strEndsWith filename ".json" = true →
      parseData parsed filename now = .ok rows →
      rows.length = (jsonItems j).length ∧
      (∀ r ∈ rows, r.processed = false ∧ r.timestamp = now) ∧
      (∀ k (hk : k < (jsonItems j).length) (hk2 : k < rows.length),
        (Json.hasField ((jsonItems j).get ⟨k, hk⟩) "id" = false →
          (rows.get ⟨k, hk2⟩).id = "row_" ++ toString k) ∧
        (Json.hasField ((jsonItems j).get ⟨k, hk⟩) "name" = false →
          (rows.get ⟨k, hk2⟩).name = "Unknown") ∧
        (Json.hasField ((jsonItems j).get ⟨k, hk⟩) "category" = false →
          (rows.get ⟨k, hk2⟩).category = "Uncategorized")) ∧
      (∀ fs, j = Json.obj fs → rows.length = 1)) := by
  constructor
  · constructor
    · rintro ⟨e, he⟩
      rw [parseData.eq_def] at he
      by_cases hj : strEndsWith filename ".json" = true
      · rw [if_pos hj] at he
        refine ⟨hj, ?_⟩
        cases hp : parsed with
        | none => exact Or.inl rfl
        | some j =>
          rw [hp] at he
          exact Or.inr ⟨j, rfl, (mapRows_error_iff now (jsonItems j) 0).mp ⟨e, he⟩⟩
      · rw [if_neg hj] at he
        exact Except.noConfusion he
    · rintro ⟨hj, hcase⟩
      rcases hcase with hp | ⟨j, hp, hnull⟩
      · subst hp
        rw [parseData.eq_def, if_pos hj]
        exact ⟨"SyntaxError", rfl⟩
      · subst hp
        obtain ⟨e, he⟩ := (mapRows_error_iff now (jsonItems j) 0).mpr hnull
        refine ⟨e, ?_⟩
        rw [parseData.eq_def, if_pos hj]
        exact he
  · intro j rows hp hj hok
    subst hp
    rw [parseData.eq_def, if_pos hj] at hok
    obtain ⟨hlen, hmem, hidx⟩ := mapRows_ok now (jsonItems j) 0 rows hok
    refine ⟨hlen, hmem, ?_, ?_⟩
    · intro k hk hk2
      have h3 := hidx k hk hk2
      rw [Nat.zero_add] at h3
      exact h3
    · intro fs hfs
      subst hfs
      rw [hlen]
      rfl

/-- Counterexample to C7 as stated: the content `null` is syntactically
valid JSON, yet `parseData` errors on it — JavaScript throws a `TypeError`
at the property access `item.id` on the lone parsed item. -/
theorem parseData_json_counterexample :
    parseData (some Json.null) "a.json" "T" = .error "TypeError" := rfl

/-- Witness for the amended C7 at a concrete valid content. -/
theorem parseData_json_total_witness :
    ([(⟨"row_0", "Unknown", "Uncategorized", "T", false⟩ : DataRow)]).length
      = (jsonItems (Json.obj [])).length :=
  ((parseData_json_total (some (Json.obj [])) "a.json" "T").2
    (Json.obj []) [⟨"row_0", "Unknown", "Uncategorized", "T", false⟩]
    rfl (by decide) rfl).1
